import Mathlib

/-!
Verification development for the astrodynamics/visibility core of the
`gcn.nasa.gov` python repository (the `across_api` package).

The Python source is shallowly embedded: times are rationals (seconds),
boolean numpy arrays are `List Bool`, per-index ephemeris data are functions
`ℕ → _`, and the transcendental astropy geometry (`angular_separation`,
`SkyCoord`, pole vectors from cross products) is abstracted into data fields
or explicit function parameters, since only comparisons of the resulting
angles are branched on by the code under study.

Code embedded from the source (file and function named at each definition):
  - `across_api/base/window.py`       (`MakeWindowBase.make_windows`)
  - `across_api/base/visibility.py`   (`VisibilityBase.get`, `.constraint`,
                                       and the per-constraint arrays)
  - `across_api/base/constraints.py`  (`getslice` and the constraint classes)
  - `across_api/base/saa.py`          (`SAABase.get` time grid)
  - `across_api/base/schema.py`       (`TLEEntry.epoch`)
  - `across_api/base/fov.py`          (`FOVBase.probability_infov` family)
  - `across_api/burstcube/saa.py`     (`BurstCubeSAAPolygon`)

`across_api/base/ephem.py` and `across_api/base/common.py` are not part of
the supplied sources; the ephemeris lookup `ephindex` and the time grid are
therefore modelled from the spec where needed (marked `Modelled from the
spec:`), as is the point-in-polygon test performed by the external `shapely`
library.
-/

namespace AcrossCore

/-- Window record mirroring `VisWindow` of `across_api/base/schema.py`:
begin/end instants (rational seconds) and the opening/closing cause labels. -/
structure VisWindow where
  tbegin : ℤ
  tend : ℤ
  initial : String
  final : String
deriving DecidableEq

/-- Loop of `MakeWindowBase.make_windows` (`across_api/base/window.py`,
lines 46-63), iterating over the combined in-constraint boolean array.
The running state `inocc` of the Python loop is encoded as an `Option ℕ`:
`none` means `inocc is True`, `some j` means `inocc is False` with
`inindex = j`.  Indices are taken relative to the start of the queried
grid (`istart = 0`), matching the length of the in-constraint array built
by `VisibilityBase.get`.  A closing step at index `i` appends the window
`(timestamp[inindex], timestamp[i-1], constraint(inindex-1), constraint(i))`. -/
def makeWindowsGo (ts : ℕ → ℤ) (cons : ℤ → String) :
    List Bool → ℕ → Option ℕ → List VisWindow → List VisWindow × Option ℕ
  | [], _, st, ws => (ws, st)
  | b :: rest, i, none, ws =>
    if b then makeWindowsGo ts cons rest (i + 1) none ws
    else makeWindowsGo ts cons rest (i + 1) (some i) ws
  | b :: rest, i, some j, ws =>
    if b then
      makeWindowsGo ts cons rest (i + 1) none
        (ws ++ [⟨ts j, ts (i - 1), cons ((j : ℤ) - 1), cons (i : ℤ)⟩])
    else makeWindowsGo ts cons rest (i + 1) (some j) ws

/-- Embeds `MakeWindowBase.make_windows` (`across_api/base/window.py`, lines 30-69):
runs the loop over the in-constraint array, then the trailing block: if the
loop ended out of constraint (`inocc` false), a final window up to the last
grid index is appended, but only when its duration is strictly positive
(`(win.end - win.begin).to(u.s) > 0`). -/
def make_windows (ts : ℕ → ℤ) (cons : ℤ → String) (incon : List Bool) :
    List VisWindow :=
  match makeWindowsGo ts cons incon 0 none [] with
  | (ws, none) => ws
  | (ws, some j) =>
    let w : VisWindow :=
      ⟨ts j, ts (incon.length - 1), cons ((j : ℤ) - 1),
        cons ((incon.length - 1 : ℕ) : ℤ)⟩
    if 0 < w.tend - w.tbegin then ws ++ [w] else ws

/-- Reference run-extraction following the spec's words ("finds maximal runs
where the combined array is False"): same traversal state as the loop, but
returning the closed index runs and the start of a still-open trailing run,
with no windows or labels attached. -/
def runsGo : List Bool → ℕ → Option ℕ → List (ℕ × ℕ) × Option ℕ
  | [], _, st => ([], st)
  | b :: rest, i, none =>
    if b then runsGo rest (i + 1) none else runsGo rest (i + 1) (some i)
  | b :: rest, i, some j =>
    if b then
      let out := runsGo rest (i + 1) none
      ((j, i - 1) :: out.1, out.2)
    else runsGo rest (i + 1) (some j)

/-- Runs named by a traversal output: the closed runs plus the trailing open
run, which ends at the last index of the array. -/
def outRuns (A : List Bool) (out : List (ℕ × ℕ) × Option ℕ) : List (ℕ × ℕ) :=
  out.1 ++ (match out.2 with
    | some j => [(j, A.length - 1)]
    | none => [])

/-- All maximal false runs of an array, as `(first index, last index)` pairs. -/
def falseRuns (incon : List Bool) : List (ℕ × ℕ) :=
  outRuns incon (runsGo incon 0 none)

/-- Element of the combined constraint array, treating the array as
implicitly bounded by "in constraint" (`true`) on both sides, as the spec
describes the synthesizer's boundary treatment. -/
def bnd (A : List Bool) (k : ℕ) : Bool :=
  A.getD k true

/-- A maximal contiguous false run of the array `A`: every index of
`[r.1, r.2]` is out of constraint, and the run can be extended in neither
direction (the query boundary or an in-constraint index lies on each side). -/
def MaxRun (A : List Bool) (r : ℕ × ℕ) : Prop :=
  r.1 ≤ r.2 ∧ r.2 < A.length ∧
    (∀ k, r.1 ≤ k → k ≤ r.2 → bnd A k = false) ∧
    (r.1 = 0 ∨ bnd A (r.1 - 1) = true) ∧
    (r.2 + 1 = A.length ∨ bnd A (r.2 + 1) = true)

/-- Invariant of the traversal state at position `i`: `none` (in constraint)
means the previous index, if any, was in constraint; `some j` (out of
constraint since `j`) means `[j, i)` is entirely out of constraint and the
run could not start earlier. -/
def StInv (A : List Bool) (i : ℕ) : Option ℕ → Prop
  | none => i = 0 ∨ bnd A (i - 1) = true
  | some j => j < i ∧ (∀ k, j ≤ k → k < i → bnd A k = false) ∧
      (j = 0 ∨ bnd A (j - 1) = true)

/-- Complete description of the traversal output from position `i` in state
`st`: the produced runs (closed runs plus trailing open run) are exactly the
maximal false runs starting at or after the threshold (the open run's start,
or `i`), they are ordered with an in-constraint gap between consecutive runs,
closed runs end strictly before the last index, and every out-of-constraint
index at or after the threshold is covered by a produced run. -/
def RunsOut (A : List Bool) (thr : ℕ) (out : List (ℕ × ℕ) × Option ℕ) : Prop :=
  (∀ r, r ∈ outRuns A out ↔ (MaxRun A r ∧ thr ≤ r.1)) ∧
    List.Chain' (fun a b => a.2 + 1 < b.1) (outRuns A out) ∧
    (∀ r, r ∈ out.1 → r.2 + 2 ≤ A.length) ∧
    (∀ k, thr ≤ k → k < A.length → bnd A k = false →
      ∃ r, r ∈ outRuns A out ∧ r.1 ≤ k ∧ k ≤ r.2)

theorem bnd_of_len_le (A : List Bool) (k : ℕ) (h : A.length ≤ k) :
    bnd A k = true :=
  List.getD_eq_default _ _ h

theorem drop_cons_lt (A : List Bool) (i : ℕ) (b : Bool) (rest : List Bool)
    (h : A.drop i = b :: rest) : i < A.length := by
  by_contra hc
  rw [List.drop_eq_nil_of_le (by omega)] at h
  exact List.noConfusion h

theorem drop_cons_bnd (A : List Bool) (i : ℕ) (b : Bool) (rest : List Bool)
    (h : A.drop i = b :: rest) : bnd A i = b := by
  have h0 : (A.drop i)[0]? = A[i + 0]? := List.getElem?_drop A i 0
  rw [h] at h0
  simp only [List.getElem?_cons_zero, Nat.add_zero] at h0
  rw [bnd, List.getD_eq_getElem?_getD, ← h0]
  rfl

theorem drop_cons_rest (A : List Bool) (i : ℕ) (b : Bool) (rest : List Bool)
    (h : A.drop i = b :: rest) : A.drop (i + 1) = rest := by
  have h1 : A.drop (i + 1) = (A.drop i).drop 1 := by
    rw [List.drop_drop]
  rw [h1, h]
  rfl

/-- Threshold of a traversal state: the open run's start, or the current
position. -/
def thrOf (i : ℕ) : Option ℕ → ℕ
  | none => i
  | some j => j

/-- Main loop invariant of the run extraction: starting anywhere in a valid
state, the traversal produces exactly the maximal false runs at or after the
threshold, in order, with the closed/open split as described by `RunsOut`. -/
theorem runsGo_spec (A : List Bool) :
    ∀ (l : List Bool) (i : ℕ) (st : Option ℕ),
      A.drop i = l → i ≤ A.length → StInv A i st →
      RunsOut A (thrOf i st) (runsGo l i st) := by
  intro l
  induction l with
  | nil =>
    intro i st hdrop hle hinv
    have hi : i = A.length := by
      have := List.drop_eq_nil_iff.mp hdrop
      omega
    cases st with
    | none =>
      simp only [thrOf]
      refine ⟨?_, ?_, ?_, ?_⟩
      · intro r
        simp only [runsGo, outRuns, List.append_nil, List.not_mem_nil, false_iff]
        rintro ⟨⟨h1, h2, -, -, -⟩, hthr⟩
        omega
      · simp [runsGo, outRuns]
      · intro r hr
        simp only [runsGo] at hr
        exact absurd hr (List.not_mem_nil r)
      · intro k hk1 hk2 _
        omega
    | some j =>
      simp only [thrOf]
      obtain ⟨hj, hall, hleft⟩ := hinv
      have hlen1 : 1 ≤ A.length := by omega
      have hrun : MaxRun A (j, A.length - 1) := by
        refine ⟨by omega, by omega, ?_, hleft, Or.inl (by omega)⟩
        intro k hk1 hk2
        exact hall k hk1 (by omega)
      have hmem : outRuns A (runsGo [] i (some j)) = [(j, A.length - 1)] := by
        simp [runsGo, outRuns]
      refine ⟨?_, ?_, ?_, ?_⟩
      · intro r
        rw [hmem, List.mem_singleton]
        constructor
        · rintro rfl
          exact ⟨hrun, le_refl j⟩
        · rintro ⟨⟨h1, h2, hfalse, hl, hr⟩, hthr⟩
          have hr1 : r.1 = j := by
            by_contra hne
            have hgt : j < r.1 := by omega
            have hb : bnd A (r.1 - 1) = false := hall (r.1 - 1) (by omega) (by omega)
            rcases hl with h0 | htrue
            · omega
            · rw [htrue] at hb
              exact Bool.noConfusion hb
          have hr2 : r.2 = A.length - 1 := by
            rcases hr with hlen | htrue
            · omega
            · by_contra hne
              have hlt : r.2 + 1 < A.length := by omega
              have hb : bnd A (r.2 + 1) = false := hall (r.2 + 1) (by omega) (by omega)
              rw [htrue] at hb
              exact Bool.noConfusion hb
          have : r = (r.1, r.2) := rfl
          rw [this, hr1, hr2]
      · rw [hmem]
        exact List.chain'_singleton _
      · intro r hr
        simp only [runsGo] at hr
        exact absurd hr (List.not_mem_nil r)
      · intro k hk1 hk2 _
        refine ⟨(j, A.length - 1), ?_, by omega, by omega⟩
        rw [hmem]
        exact List.mem_singleton.mpr rfl
  | cons b rest ih =>
    intro i st hdrop hle hinv
    have hlt : i < A.length := drop_cons_lt A i b rest hdrop
    have hbnd : bnd A i = b := drop_cons_bnd A i b rest hdrop
    have hrest : A.drop (i + 1) = rest := drop_cons_rest A i b rest hdrop
    cases st with
    | none =>
      cases b with
      | true =>
        have hout : runsGo (true :: rest) i none = runsGo rest (i + 1) none := by
          simp [runsGo]
        rw [hout]
        simp only [thrOf]
        obtain ⟨ihM1, ihC, ihM3, ihM4⟩ :=
          ih (i + 1) none hrest (by omega) (Or.inr (by simpa using hbnd))
        simp only [thrOf] at ihM1 ihM4
        refine ⟨?_, ihC, ihM3, ?_⟩
        · intro r
          rw [ihM1 r]
          constructor
          · rintro ⟨hmax, hthr⟩
            exact ⟨hmax, by omega⟩
          · rintro ⟨hmax, hthr⟩
            refine ⟨hmax, ?_⟩
            rcases Nat.eq_or_lt_of_le hthr with heq | hlt2
            · exfalso
              have hb : bnd A r.1 = false := hmax.2.2.1 r.1 le_rfl hmax.1
              rw [← heq] at hb
              rw [hbnd] at hb
              exact Bool.noConfusion hb
            · omega
        · intro k hk1 hk2 hkb
          have hki : k ≠ i := by
            intro heq
            rw [heq, hbnd] at hkb
            exact Bool.noConfusion hkb
          exact ihM4 k (by omega) hk2 hkb
      | false =>
        have hout : runsGo (false :: rest) i none = runsGo rest (i + 1) (some i) := by
          simp [runsGo]
        rw [hout]
        have hinv' : StInv A (i + 1) (some i) := by
          refine ⟨by omega, ?_, hinv⟩
          intro k hk1 hk2
          have : k = i := by omega
          rw [this]
          simpa using hbnd
        have := ih (i + 1) (some i) hrest (by omega) hinv'
        simpa only [thrOf] using this
    | some j =>
      obtain ⟨hj, hall, hleft⟩ := hinv
      cases b with
      | false =>
        have hout : runsGo (false :: rest) i (some j) = runsGo rest (i + 1) (some j) := by
          simp [runsGo]
        rw [hout]
        have hinv' : StInv A (i + 1) (some j) := by
          refine ⟨by omega, ?_, hleft⟩
          intro k hk1 hk2
          rcases Nat.lt_or_ge k i with hk | hk
          · exact hall k hk1 hk
          · have : k = i := by omega
            rw [this]
            simpa using hbnd
        have := ih (i + 1) (some j) hrest (by omega) hinv'
        simpa only [thrOf] using this
      | true =>
        have hout : runsGo (true :: rest) i (some j) =
            ((j, i - 1) :: (runsGo rest (i + 1) none).1, (runsGo rest (i + 1) none).2) := by
          simp [runsGo]
        rw [hout]
        simp only [thrOf]
        obtain ⟨ihM1, ihC, ihM3, ihM4⟩ :=
          ih (i + 1) none hrest (by omega) (Or.inr (by simpa using hbnd))
        simp only [thrOf] at ihM1 ihM4
        have houtr : outRuns A ((j, i - 1) :: (runsGo rest (i + 1) none).1,
            (runsGo rest (i + 1) none).2) =
            (j, i - 1) :: outRuns A (runsGo rest (i + 1) none) := by
          simp [outRuns]
        have hrun : MaxRun A (j, i - 1) := by
          refine ⟨by omega, by omega, ?_, hleft, ?_⟩
          · intro k hk1 hk2
            exact hall k hk1 (by omega)
          · right
            have h1 : i - 1 + 1 = i := by omega
            rw [h1]
            exact hbnd
        refine ⟨?_, ?_, ?_, ?_⟩
        · intro r
          rw [houtr, List.mem_cons, ihM1 r]
          constructor
          · rintro (rfl | ⟨hmax, hthr⟩)
            · exact ⟨hrun, le_refl j⟩
            · exact ⟨hmax, by omega⟩
          · rintro ⟨hmax, hthr⟩
            obtain ⟨h1, h2, hfalse, hl, hr⟩ := hmax
            rcases Nat.lt_or_ge r.1 (i + 1) with hcase | hcase
            · left
              have hr1 : r.1 = j := by
                by_contra hne
                have hgt : j < r.1 := by omega
                have hri : r.1 ≠ i := by
                  intro heq
                  have hb : bnd A r.1 = false := hfalse r.1 le_rfl h1
                  rw [heq, hbnd] at hb
                  exact Bool.noConfusion hb
                have hb : bnd A (r.1 - 1) = false := hall (r.1 - 1) (by omega) (by omega)
                rcases hl with h0 | htrue
                · omega
                · rw [htrue] at hb
                  exact Bool.noConfusion hb
              have hr2lt : r.2 < i := by
                by_contra hge
                have hb : bnd A i = false := hfalse i (by omega) (by omega)
                rw [hbnd] at hb
                exact Bool.noConfusion hb
              have hr2 : r.2 = i - 1 := by
                by_contra hne
                have hltr : r.2 + 1 < i := by omega
                have hb : bnd A (r.2 + 1) = false := hall (r.2 + 1) (by omega) (by omega)
                rcases hr with hlen | htrue
                · omega
                · rw [htrue] at hb
                  exact Bool.noConfusion hb
              have : r = (r.1, r.2) := rfl
              rw [this, hr1, hr2]
            · right
              exact ⟨⟨h1, h2, hfalse, hl, hr⟩, hcase⟩
        · rw [houtr]
          rw [List.chain'_cons']
          constructor
          · intro hd hhd
            have hmem : hd ∈ outRuns A (runsGo rest (i + 1) none) :=
              List.mem_of_mem_head? hhd
            have := (ihM1 hd).mp hmem
            omega
          · exact ihC
        · intro r hr
          simp only [List.mem_cons] at hr
          rcases hr with rfl | hr
          · simp only
            omega
          · exact ihM3 r hr
        · intro k hk1 hk2 hkb
          rcases Nat.lt_or_ge k i with hk | hk
          · refine ⟨(j, i - 1), ?_, by omega, by omega⟩
            rw [houtr]
            exact List.mem_cons_self _ _
          · have hki : k ≠ i := by
              intro heq
              rw [heq, hbnd] at hkb
              exact Bool.noConfusion hkb
            obtain ⟨r, hrmem, hrk⟩ := ihM4 k (by omega) hk2 hkb
            refine ⟨r, ?_, hrk.1, hrk.2⟩
            rw [houtr]
            exact List.mem_cons_of_mem _ hrmem

/-- Window built from an index run: begin/end are the timestamps of the
run's first and last index, the opening label is evaluated one index before
the run and the closing label one index after it, clamped to the final grid
index (the code evaluates the closing label of the trailing window at the
final index itself). -/
def toWin (ts : ℕ → ℤ) (cons : ℤ → String) (n : ℕ) (r : ℕ × ℕ) : VisWindow :=
  ⟨ts r.1, ts r.2, cons ((r.1 : ℤ) - 1), cons ((min (r.2 + 1) (n - 1) : ℕ) : ℤ)⟩

/-- Filter implemented by the trailing duration check of `make_windows`: a
run is dropped exactly when it is a single grid point at the very end of the
queried range. -/
def keepRun (n : ℕ) (r : ℕ × ℕ) : Bool :=
  !(r.1 == r.2 && (r.2 + 1) == n)

theorem keepRun_true (n : ℕ) (r : ℕ × ℕ) :
    keepRun n r = true ↔ ¬(r.1 = r.2 ∧ r.2 + 1 = n) := by
  simp [keepRun]
  tauto

/-- The window-producing loop is the run-extraction loop with each closed run
mapped to its window. -/
theorem makeWindowsGo_eq (ts : ℕ → ℤ) (cons : ℤ → String) :
    ∀ (l : List Bool) (i : ℕ) (st : Option ℕ) (ws : List VisWindow),
      (∀ j, st = some j → j < i) →
      makeWindowsGo ts cons l i st ws =
        (ws ++ (runsGo l i st).1.map (fun r =>
          ⟨ts r.1, ts r.2, cons ((r.1 : ℤ) - 1), cons ((r.2 : ℤ) + 1)⟩),
         (runsGo l i st).2) := by
  intro l
  induction l with
  | nil =>
    intro i st ws hst
    simp [makeWindowsGo, runsGo]
  | cons b rest ih =>
    intro i st ws hst
    cases st with
    | none =>
      cases b with
      | true =>
        simpa [makeWindowsGo, runsGo] using ih (i + 1) none ws (by intro j h; exact Option.noConfusion h)
      | false =>
        simpa [makeWindowsGo, runsGo] using
          ih (i + 1) (some i) ws (by intro j h; cases h; omega)
    | some j =>
      have hj : j < i := hst j rfl
      cases b with
      | false =>
        simpa [makeWindowsGo, runsGo] using
          ih (i + 1) (some j) ws (by intro j' h; cases h; omega)
      | true =>
        have hcast : ((i - 1 : ℕ) : ℤ) + 1 = (i : ℤ) := by omega
        have hIH := ih (i + 1) none
          (ws ++ [⟨ts j, ts (i - 1), cons ((j : ℤ) - 1), cons (i : ℤ)⟩])
          (by intro j' h; exact Option.noConfusion h)
        simp only [makeWindowsGo, runsGo, if_true, hIH]
        simp [List.append_assoc, hcast]

/-- Characterization: `make_windows` returns exactly the maximal false runs of the combined
array, each mapped to its window, except that a trailing run consisting of a
single grid point (a zero-duration window at the end of the range) is
dropped by the duration check. -/
theorem make_windows_eq (ts : ℕ → ℤ) (cons : ℤ → String) (incon : List Bool)
    (hts : ∀ a b : ℕ, a < b → ts a < ts b) :
    make_windows ts cons incon =
      (((falseRuns incon).filter (keepRun incon.length)).map
        (toWin ts cons incon.length)) := by
  have hspec := runsGo_spec incon incon 0 none rfl (by omega) (Or.inl rfl)
  obtain ⟨hM1, hC, hM3, hM4⟩ := hspec
  have hgo := makeWindowsGo_eq ts cons incon 0 none []
    (by intro j h; exact Option.noConfusion h)
  rw [make_windows, hgo]
  rcases hop : (runsGo incon 0 none).2 with _ | j
  · -- loop ended in constraint: no trailing window
    have hruns : falseRuns incon = (runsGo incon 0 none).1 := by
      rw [falseRuns, outRuns, hop]
      simp
    simp only [List.nil_append]
    rw [hruns]
    have hkeep : (runsGo incon 0 none).1.filter (keepRun incon.length) =
        (runsGo incon 0 none).1 := by
      apply List.filter_eq_self.mpr
      intro r hr
      have h3 := hM3 r hr
      rw [keepRun_true]
      omega
    rw [hkeep]
    apply List.map_congr_left
    intro r hr
    have h3 := hM3 r hr
    simp only [toWin]
    have hmin : min (r.2 + 1) (incon.length - 1) = r.2 + 1 := by omega
    have hcast : ((r.2 + 1 : ℕ) : ℤ) = (r.2 : ℤ) + 1 := by omega
    rw [hmin, hcast]
  · -- loop ended out of constraint: trailing window through the final index
    have hruns : falseRuns incon =
        (runsGo incon 0 none).1 ++ [(j, incon.length - 1)] := by
      rw [falseRuns, outRuns, hop]
    have hmem : (j, incon.length - 1) ∈ outRuns incon (runsGo incon 0 none) := by
      rw [outRuns, hop]
      simp
    obtain ⟨hmax, -⟩ := (hM1 _).mp hmem
    have hn1 : 1 ≤ incon.length := by
      have := hmax.2.1
      omega
    have hjle : j ≤ incon.length - 1 := hmax.1
    have hkeepcl : (runsGo incon 0 none).1.filter (keepRun incon.length) =
        (runsGo incon 0 none).1 := by
      apply List.filter_eq_self.mpr
      intro r hr
      have h3 := hM3 r hr
      rw [keepRun_true]
      omega
    have hmapcl : ((runsGo incon 0 none).1.map (toWin ts cons incon.length)) =
        (runsGo incon 0 none).1.map (fun r =>
          ⟨ts r.1, ts r.2, cons ((r.1 : ℤ) - 1), cons ((r.2 : ℤ) + 1)⟩) := by
      apply List.map_congr_left
      intro r hr
      have h3 := hM3 r hr
      simp only [toWin]
      have hmin : min (r.2 + 1) (incon.length - 1) = r.2 + 1 := by omega
      have hcast : ((r.2 + 1 : ℕ) : ℤ) = (r.2 : ℤ) + 1 := by omega
      rw [hmin, hcast]
    rw [hruns, List.filter_append, hkeepcl]
    rcases Nat.eq_or_lt_of_le hjle with heq | hlt
    · -- degenerate trailing run: dropped on both sides
      have hdur : ¬ (0 < ts (incon.length - 1) - ts j) := by
        rw [heq]
        simp
      have hfilt : [(j, incon.length - 1)].filter (keepRun incon.length) = [] := by
        simp only [List.filter, keepRun]
        have : (j == incon.length - 1 && incon.length - 1 + 1 == incon.length) = true := by
          simp only [Bool.and_eq_true, beq_iff_eq]
          omega
        rw [this]
        rfl
      rw [hfilt, List.append_nil, List.nil_append]
      simp only [hdur, if_false]
      rw [hmapcl]
    · -- proper trailing run: kept on both sides
      have hdur : 0 < ts (incon.length - 1) - ts j := by
        have := hts j (incon.length - 1) hlt
        linarith
      have hfilt : [(j, incon.length - 1)].filter (keepRun incon.length) =
          [(j, incon.length - 1)] := by
        simp only [List.filter, keepRun]
        have : (j == incon.length - 1 && incon.length - 1 + 1 == incon.length) = false := by
          simp only [Bool.and_eq_false_iff, beq_eq_false_iff_ne, ne_eq]
          left
          omega
        rw [this]
        rfl
      rw [hfilt, List.map_append, hmapcl, List.nil_append]
      simp only [hdur, if_true]
      congr 1
      simp only [toWin, List.map_cons, List.map_nil]
      have hmin : min (incon.length - 1 + 1) (incon.length - 1) = incon.length - 1 := by
        omega
      rw [hmin]

/-- Per-run facts of `falseRuns`: membership is exactly being a maximal false
run of the array. -/
theorem falseRuns_iff (A : List Bool) (r : ℕ × ℕ) :
    r ∈ falseRuns A ↔ MaxRun A r := by
  obtain ⟨hM1, -, -, -⟩ := runsGo_spec A A 0 none rfl (by omega) (Or.inl rfl)
  rw [falseRuns, hM1 r]
  simp [thrOf]

/-- Runs of `falseRuns` are ordered, pairwise disjoint, and separated by at
least one in-constraint index. -/
theorem falseRuns_chain (A : List Bool) :
    List.Chain' (fun a b => a.2 + 1 < b.1) (falseRuns A) := by
  obtain ⟨-, hC, -, -⟩ := runsGo_spec A A 0 none rfl (by omega) (Or.inl rfl)
  exact hC

/-- Every out-of-constraint index of the array is covered by one of the
maximal false runs. -/
theorem falseRuns_cover (A : List Bool) (k : ℕ) (h1 : k < A.length)
    (h2 : bnd A k = false) : ∃ r, r ∈ falseRuns A ∧ r.1 ≤ k ∧ k ≤ r.2 := by
  obtain ⟨-, -, -, hM4⟩ := runsGo_spec A A 0 none rfl (by omega) (Or.inl rfl)
  exact hM4 k (by simp [thrOf]) h1 h2

/-- An array that is in constraint everywhere has no false runs. -/
theorem falseRuns_all_true (A : List Bool)
    (h : ∀ k, k < A.length → bnd A k = true) : falseRuns A = [] := by
  rw [List.eq_nil_iff_forall_not_mem]
  intro r hr
  obtain ⟨h1, h2, hfalse, -, -⟩ := (falseRuns_iff A r).mp hr
  have hb : bnd A r.1 = false := hfalse r.1 le_rfl h1
  rw [h r.1 (by omega)] at hb
  exact Bool.noConfusion hb

/-- An array that is out of constraint everywhere has a single false run
covering all of it. -/
theorem falseRuns_all_false (A : List Bool) (hn : 1 ≤ A.length)
    (h : ∀ k, k < A.length → bnd A k = false) :
    falseRuns A = [(0, A.length - 1)] := by
  have hmax : MaxRun A (0, A.length - 1) := by
    refine ⟨by omega, by omega, ?_, Or.inl rfl, Or.inl (by omega)⟩
    intro k hk1 hk2
    exact h k (by omega)
  have hmem : (0, A.length - 1) ∈ falseRuns A := (falseRuns_iff A _).mpr hmax
  have hall : ∀ r, r ∈ falseRuns A → r = (0, A.length - 1) := by
    intro r hr
    obtain ⟨h1, h2, hfalse, hl, hrr⟩ := (falseRuns_iff A r).mp hr
    have hr1 : r.1 = 0 := by
      rcases hl with h0 | htrue
      · exact h0
      · exfalso
        have hb : bnd A (r.1 - 1) = false := h (r.1 - 1) (by omega)
        rw [htrue] at hb
        exact Bool.noConfusion hb
    have hr2 : r.2 = A.length - 1 := by
      rcases hrr with hlen | htrue
      · omega
      · by_contra hne
        have hb : bnd A (r.2 + 1) = false := h (r.2 + 1) (by omega)
        rw [htrue] at hb
        exact Bool.noConfusion hb
    have : r = (r.1, r.2) := rfl
    rw [this, hr1, hr2]
  have hchain := falseRuns_chain A
  rcases hfr : falseRuns A with _ | ⟨x, _ | ⟨y, t⟩⟩
  · rw [hfr] at hmem
    exact absurd hmem (List.not_mem_nil _)
  · rw [hfr] at hall
    rw [hall x (List.mem_singleton.mpr rfl)]
  · exfalso
    rw [hfr] at hall hchain
    have hx : x = (0, A.length - 1) := hall x (by simp)
    have hy : y = (0, A.length - 1) := hall y (by simp)
    have hrel := List.chain'_cons.mp hchain
    rw [hx, hy] at hrel
    have := hrel.1
    omega

/-- Query state of `VisibilityBase` (`across_api/base/visibility.py`): the
queried grid has `n` instants with timestamps `ts`, the per-constraint
boolean arrays are indexed over that grid, and the per-mission enable flags
mirror `ram_cons` .. `saa_cons`.  The grid indices are those of the queried
slice (`ephstart = 0`); the timestamps are rational seconds, modelled from
the spec's TimeGrid ("index i always refers to the same instant"), since
`base/ephem.py` is not among the supplied sources. -/
structure VisQuery where
  n : ℕ
  ts : ℕ → ℤ
  insun : ℕ → Bool
  inmoon : ℕ → Bool
  inpole : ℕ → Bool
  inearth : ℕ → Bool
  insaa : ℕ → Bool
  inram : ℕ → Bool
  sun_cons : Bool
  moon_cons : Bool
  pole_cons : Bool
  earth_cons : Bool
  saa_cons : Bool
  ram_cons : Bool

/-- Combined in-constraint value at one grid index: the elementwise OR that
`VisibilityBase.get` (lines 307-332) accumulates into `self.inconstraint`,
adding each constraint array only when its enable flag is set, in the order
SAA, Earth, Moon, Sun, Pole, Ram. -/
def inconstraint (q : VisQuery) (i : ℕ) : Bool :=
  (q.saa_cons && q.insaa i) || (q.earth_cons && q.inearth i) ||
    (q.moon_cons && q.inmoon i) || (q.sun_cons && q.insun i) ||
    (q.pole_cons && q.inpole i) || (q.ram_cons && q.inram i)

/-- The combined in-constraint array over the queried grid. -/
def combinedList (q : VisQuery) : List Bool :=
  (List.range q.n).map (inconstraint q)

/-- Embeds `VisibilityBase.constraint` (`across_api/base/visibility.py`, lines
339-371): "Window" at the index before the query start (`ephstart - 1 = -1`)
or at the query's final grid index (`ephstop - 1 = n - 1`); otherwise, if the
combined array is in constraint there, the first match of the chain Sun,
Moon, Pole (only when the pole constraint is enabled), Earth, SAA, with
"Unknown" when none of the named arrays is true; "None" out of constraint. -/
def constraintLabel (q : VisQuery) (index : ℤ) : String :=
  if index = -1 ∨ index = (q.n : ℤ) - 1 then "Window"
  else if inconstraint q index.toNat then
    if q.insun index.toNat then "Sun"
    else if q.inmoon index.toNat then "Moon"
    else if q.pole_cons && q.inpole index.toNat then "Pole"
    else if q.inearth index.toNat then "Earth"
    else if q.insaa index.toNat then "SAA"
    else "Unknown"
  else "None"

/-- Embeds `VisibilityBase.get` (lines 289-337): build the combined array and run
`make_windows` over it with `VisibilityBase.constraint` as the labeller. -/
def visibilityEntries (q : VisQuery) : List VisWindow :=
  make_windows q.ts (constraintLabel q) (combinedList q)

/-- Label selection following the spec's words at a non-boundary in-constraint
index: the first matching constraint in the tie-break order Sun, Moon, Pole,
Earth, SAA, and "Unknown" when none of those matches (in particular when the
Ram constraint alone is active). -/
def firstMatchLabel (q : VisQuery) (i : ℕ) : String :=
  (([(q.insun i, "Sun"), (q.inmoon i, "Moon"),
      (q.pole_cons && q.inpole i, "Pole"), (q.inearth i, "Earth"),
      (q.insaa i, "SAA")].find? (fun p => p.1)).map Prod.snd).getD "Unknown"

/-- Label selection exactly as the claim words it: first match in the
tie-break order Sun, Moon, Pole, Earth, SAA, Ram. -/
def claimLabelWithRam (q : VisQuery) (i : ℕ) : String :=
  (([(q.insun i, "Sun"), (q.inmoon i, "Moon"),
      (q.pole_cons && q.inpole i, "Pole"), (q.inearth i, "Earth"),
      (q.insaa i, "SAA"), (q.ram_cons && q.inram i, "Ram")].find?
    (fun p => p.1)).map Prod.snd).getD "Unknown"

theorem combinedList_length (q : VisQuery) : (combinedList q).length = q.n := by
  simp [combinedList]

theorem bnd_combinedList (q : VisQuery) (k : ℕ) :
    bnd (combinedList q) k = if k < q.n then inconstraint q k else true := by
  by_cases h : k < q.n
  · simp [bnd, combinedList, List.getD_eq_getElem?_getD, List.getElem?_map,
      List.getElem?_range, h]
  · have hnone : (List.range q.n)[k]? = none := by
      apply List.getElem?_eq_none
      simpa using Nat.le_of_not_lt h
    simp [bnd, combinedList, List.getD_eq_getElem?_getD, hnone]
    exact Or.inl (Nat.le_of_not_lt h)

/-- Example visibility query used by witnesses: three instants at 60 s
spacing, Sun constraint active only at the first instant. -/
def qWitA : VisQuery :=
  ⟨3, fun i => (60 : ℤ) * i, fun i => decide (i = 0), fun _ => false,
    fun _ => false, fun _ => false, fun _ => false, fun _ => false,
    true, true, true, true, true, true⟩

/-- Query with a single trailing out-of-constraint instant: SAA active at the
first of two instants only. -/
def qCexA : VisQuery :=
  ⟨2, fun i => (60 : ℤ) * i, fun _ => false, fun _ => false, fun _ => false,
    fun _ => false, fun i => decide (i = 0), fun _ => false,
    true, true, true, true, true, true⟩

/-- Query where the Ram constraint alone is active around a one-instant
window. -/
def qCexRam : VisQuery :=
  ⟨4, fun i => (60 : ℤ) * i, fun _ => false, fun _ => false, fun _ => false,
    fun _ => false, fun _ => false, fun i => decide (i ≠ 1),
    true, true, true, true, true, true⟩

/-- Example query for the label witness: four instants, Moon constraint
active at the first and last two instants. -/
def qWitB : VisQuery :=
  ⟨4, fun i => (60 : ℤ) * i, fun _ => false, fun i => decide (i ≠ 1),
    fun _ => false, fun _ => false, fun _ => false, fun _ => false,
    true, true, true, true, true, true⟩

/-- Single-instant query entirely free of constraints. -/
def qCexOne : VisQuery :=
  ⟨1, fun i => (60 : ℤ) * i, fun _ => false, fun _ => false, fun _ => false,
    fun _ => false, fun _ => false, fun _ => false,
    true, true, true, true, true, true⟩

/-- Two-instant query entirely free of constraints, and a two-instant query
entirely in constraint, merged into one example by toggling the Sun array. -/
def qWitC : VisQuery :=
  ⟨2, fun i => (60 : ℤ) * i, fun _ => false, fun _ => false, fun _ => false,
    fun _ => false, fun _ => false, fun _ => false,
    true, true, true, true, true, true⟩

theorem ts60_mono : ∀ a b : ℕ, a < b → (60 : ℤ) * a < 60 * b := by
  intro a b hab
  omega

/-- C1 (amended).  The windows returned for a visibility query are exactly
the maximal contiguous false runs of the combined (elementwise-OR)
in-constraint array over the queried grid, each with begin/end the
timestamps of the run's first/last index — except that a trailing run
consisting of the single final grid instant (a zero-duration window) is
dropped by the duration check.  The runs are pairwise disjoint and ordered
with an in-constraint gap between consecutive runs, and together with the
in-constraint indices they tile the queried range: an index is out of
constraint exactly when some maximal run covers it. -/
theorem C1_amended (q : VisQuery)
    (hts : ∀ a b : ℕ, a < b → q.ts a < q.ts b) :
    visibilityEntries q =
      ((falseRuns (combinedList q)).filter (keepRun q.n)).map
        (toWin q.ts (constraintLabel q) q.n)
    ∧ (∀ r, r ∈ falseRuns (combinedList q) ↔ MaxRun (combinedList q) r)
    ∧ List.Chain' (fun a b => a.2 + 1 < b.1) (falseRuns (combinedList q))
    ∧ (∀ k, k < q.n → (inconstraint q k = false ↔
        ∃ r, r ∈ falseRuns (combinedList q) ∧ r.1 ≤ k ∧ k ≤ r.2)) := by
  refine ⟨?_, falseRuns_iff _, falseRuns_chain _, ?_⟩
  · rw [visibilityEntries, make_windows_eq _ _ _ hts, combinedList_length]
  · intro k hk
    constructor
    · intro hkf
      apply falseRuns_cover
      · rw [combinedList_length]
        exact hk
      · rw [bnd_combinedList, if_pos hk]
        exact hkf
    · rintro ⟨r, hr, h1, h2⟩
      have hmax := (falseRuns_iff _ _).mp hr
      have hb := hmax.2.2.1 k h1 h2
      rw [bnd_combinedList, if_pos hk] at hb
      exact hb

theorem C1_witness :
    visibilityEntries qWitA =
      ((falseRuns (combinedList qWitA)).filter (keepRun qWitA.n)).map
        (toWin qWitA.ts (constraintLabel qWitA) qWitA.n)
    ∧ (∀ r, r ∈ falseRuns (combinedList qWitA) ↔ MaxRun (combinedList qWitA) r)
    ∧ List.Chain' (fun a b => a.2 + 1 < b.1) (falseRuns (combinedList qWitA))
    ∧ (∀ k, k < qWitA.n → (inconstraint qWitA k = false ↔
        ∃ r, r ∈ falseRuns (combinedList qWitA) ∧ r.1 ≤ k ∧ k ≤ r.2)) :=
  C1_amended qWitA ts60_mono

/-- C1 as frozen is false on the code: in a two-instant query whose combined
array is `[true, false]`, `(1, 1)` is a maximal false run of the combined
array, yet the synthesizer returns no window at all (the trailing
zero-duration window is filtered), so the returned windows are not exactly
the maximal runs and the claimed tiling misses the final instant. -/
theorem C1_counterexample :
    visibilityEntries qCexA = [] ∧ MaxRun (combinedList qCexA) (1, 1) := by
  constructor
  · decide
  · refine ⟨le_rfl, by decide, ?_, Or.inr (by decide), Or.inl (by decide)⟩
    intro k h1 h2
    have hk : k = 1 := by omega
    rw [hk]
    decide

/-- C2 (amended).  Every returned window corresponds to a maximal false run
`r` of the combined array: its initial label is the code's labeller evaluated
at the index immediately before the run and its final label the labeller at
the index immediately after the run, clamped to the query's final grid index.
At a non-boundary in-constraint index the labeller is the first match in the
tie-break order Sun, Moon, Pole, Earth, SAA — the Ram constraint is never
named, yielding "Unknown" when it alone is active — and at the index before
the query start or at the query's final grid index the label is "Window". -/
theorem C2_amended (q : VisQuery)
    (hts : ∀ a b : ℕ, a < b → q.ts a < q.ts b) :
    (∀ w, w ∈ visibilityEntries q → ∃ r : ℕ × ℕ,
        MaxRun (combinedList q) r ∧
        w = ⟨q.ts r.1, q.ts r.2, constraintLabel q ((r.1 : ℤ) - 1),
          constraintLabel q ((min (r.2 + 1) (q.n - 1) : ℕ) : ℤ)⟩)
    ∧ (∀ i : ℕ, i + 1 < q.n → inconstraint q i = true →
        constraintLabel q (i : ℤ) = firstMatchLabel q i)
    ∧ (∀ index : ℤ, index = -1 ∨ index = (q.n : ℤ) - 1 →
        constraintLabel q index = "Window") := by
  refine ⟨?_, ?_, ?_⟩
  · intro w hw
    rw [visibilityEntries, make_windows_eq _ _ _ hts, combinedList_length] at hw
    obtain ⟨r, hrf, hwr⟩ := List.mem_map.mp hw
    have hrmem := (List.mem_filter.mp hrf).1
    exact ⟨r, (falseRuns_iff _ _).mp hrmem, hwr.symm⟩
  · intro i hi hc
    have hnotb : ¬((i : ℤ) = -1 ∨ (i : ℤ) = (q.n : ℤ) - 1) := by
      push_neg
      omega
    have htn : ((i : ℤ)).toNat = i := Int.toNat_natCast i
    rw [constraintLabel, if_neg hnotb, htn, if_pos hc]
    cases hs : q.insun i <;> cases hm : q.inmoon i <;>
      cases hp : (q.pole_cons && q.inpole i) <;> cases he : q.inearth i <;>
      cases hsa : q.insaa i <;>
      simp [firstMatchLabel, hs, hm, hp, he, hsa, List.find?]
  · intro index h
    rw [constraintLabel, if_pos h]

theorem C2_witness :
    (∀ w, w ∈ visibilityEntries qWitB → ∃ r : ℕ × ℕ,
        MaxRun (combinedList qWitB) r ∧
        w = ⟨qWitB.ts r.1, qWitB.ts r.2, constraintLabel qWitB ((r.1 : ℤ) - 1),
          constraintLabel qWitB ((min (r.2 + 1) (qWitB.n - 1) : ℕ) : ℤ)⟩)
    ∧ (∀ i : ℕ, i + 1 < qWitB.n → inconstraint qWitB i = true →
        constraintLabel qWitB (i : ℤ) = firstMatchLabel qWitB i)
    ∧ (∀ index : ℤ, index = -1 ∨ index = (qWitB.n : ℤ) - 1 →
        constraintLabel qWitB index = "Window") :=
  C2_amended qWitB ts60_mono

/-- C2 as frozen is false on the code: when only the Ram constraint is active
at the indices adjacent to a window, the claimed tie-break order
Sun, Moon, Pole, Earth, SAA, Ram would label the window "Ram", but the code's
label chain never checks the Ram constraint and returns "Unknown". -/
theorem C2_counterexample :
    (visibilityEntries qCexRam).map VisWindow.initial = ["Unknown"]
    ∧ claimLabelWithRam qCexRam 0 = "Ram"
    ∧ inconstraint qCexRam 0 = true
    ∧ ("Unknown" : String) ≠ "Ram" := by
  refine ⟨by decide, by decide, by decide, by decide⟩

/-- C3 (amended).  A query whose combined array is in constraint at every
grid instant yields zero windows.  A query free of constraints at every
instant yields exactly one window spanning the queried range with labels
"Window"/"Window", provided the grid has at least two instants; a
single-instant constraint-free query yields zero windows, its only candidate
window having zero duration. -/
theorem C3_amended (q : VisQuery)
    (hts : ∀ a b : ℕ, a < b → q.ts a < q.ts b) :
    ((∀ i, i < q.n → inconstraint q i = true) → visibilityEntries q = [])
    ∧ (2 ≤ q.n → (∀ i, i < q.n → inconstraint q i = false) →
        visibilityEntries q =
          [⟨q.ts 0, q.ts (q.n - 1), "Window", "Window"⟩]) := by
  constructor
  · intro hall
    rw [visibilityEntries, make_windows_eq _ _ _ hts, falseRuns_all_true]
    · rfl
    · intro k hk
      rw [combinedList_length] at hk
      rw [bnd_combinedList, if_pos hk]
      exact hall k hk
  · intro hn hall
    rw [visibilityEntries, make_windows_eq _ _ _ hts, combinedList_length,
      falseRuns_all_false (combinedList q)
        (by rw [combinedList_length]; omega)
        (by
          intro k hk
          rw [combinedList_length] at hk
          rw [bnd_combinedList, if_pos hk]
          exact hall k hk),
      combinedList_length]
    have hkeep : keepRun q.n (0, q.n - 1) = true := by
      rw [keepRun_true]
      omega
    have hlab1 : constraintLabel q (((0 : ℕ) : ℤ) - 1) = "Window" := by
      rw [constraintLabel, if_pos]
      left
      norm_num
    have hlab2 : constraintLabel q ((min (q.n - 1 + 1) (q.n - 1) : ℕ) : ℤ) =
        "Window" := by
      have hmin : min (q.n - 1 + 1) (q.n - 1) = q.n - 1 := by omega
      rw [hmin, constraintLabel, if_pos]
      right
      omega
    simp only [List.filter, hkeep, List.map_cons, List.map_nil, toWin]
    rw [hlab1, hlab2]

theorem C3_witness :
    ((∀ i, i < qWitC.n → inconstraint qWitC i = true) →
        visibilityEntries qWitC = [])
    ∧ (2 ≤ qWitC.n → (∀ i, i < qWitC.n → inconstraint qWitC i = false) →
        visibilityEntries qWitC =
          [⟨qWitC.ts 0, qWitC.ts (qWitC.n - 1), "Window", "Window"⟩]) :=
  C3_amended qWitC ts60_mono

/-- C3 as frozen is false on the code: a single-instant query entirely free
of constraints returns zero windows, not one, because the only candidate
window has zero duration and is filtered. -/
theorem C3_counterexample :
    qCexOne.n = 1 ∧ inconstraint qCexOne 0 = false
    ∧ visibilityEntries qCexOne = [] := by
  refine ⟨rfl, by decide, by decide⟩

/-- Sky position as (ra, dec) in degrees. -/
structure Sky where
  ra : ℚ
  dec : ℚ
deriving DecidableEq

/-- Ephemeris data consumed by the constraint predicates
(`across_api/base/constraints.py`).  `base/ephem.py` is not among the
supplied sources, so per the spec the ephemeris owns a covered time range
and per-index parallel data arrays, and `ephindex` — modelled from the spec:
"locating the index range covering [begin,end] in the ephemeris's TimeGrid"
— is an abstract lookup from an instant to its grid index.  The directions
of Earth, Sun, Moon, the velocity direction (`SkyCoord(velvec)`), and the
normalized orbit pole (`posvec.cross(velvec)` normalized) are per-index sky
positions; `earthsize` is the Earth's apparent angular radius in degrees. -/
structure EphemQ where
  tbegin : ℚ
  tend : ℚ
  ephindex : ℚ → ℕ
  longitude : ℕ → ℚ
  latitude : ℕ → ℚ
  earth : ℕ → Sky
  sun : ℕ → Sky
  moon : ℕ → Sky
  velsky : ℕ → Sky
  polesky : ℕ → Sky
  earthsize : ℕ → ℚ

/-- Scalar `Time` or `Time` array argument, with astropy's `isscalar`. -/
inductive TimeArg where
  | scalar (t : ℚ)
  | array (ts : List ℚ)
deriving DecidableEq

/-- Mirrors `Time.isscalar`. -/
def TimeArg.isscalar : TimeArg → Bool
  | .scalar _ => true
  | .array _ => false

/-- Scalar `SkyCoord` or `SkyCoord` array argument. -/
inductive CoordArg where
  | scalar (c : Sky)
  | array (cs : List Sky)
deriving DecidableEq

/-- Mirrors `SkyCoord.isscalar`. -/
def CoordArg.isscalar : CoordArg → Bool
  | .scalar _ => true
  | .array _ => false

/-- Coordinates of a `CoordArg` as a list (a scalar broadcasts as one). -/
def CoordArg.toList : CoordArg → List Sky
  | .scalar c => [c]
  | .array cs => cs

/-- Scalar bool or bool array result, mirroring
`Union[bool, np.ndarray]` returns of the constraint classes. -/
inductive BoolOrArr where
  | scalar (b : Bool)
  | array (bs : List Bool)
deriving DecidableEq

/-- Embeds `getslice` (`across_api/base/constraints.py`, lines 14-47): for a scalar
time, assert it lies in the ephemeris range and return the one-index slice
at `ephindex(time)`; for a time array, assert its first and last elements
lie in the range and return the slice from `ephindex(time[0])` to
`ephindex(time[-1]) + 1`.  The failed `assert` is an `Except.error`. -/
def getslice (time : TimeArg) (ephem : EphemQ) : Except String (ℕ × ℕ) :=
  match time with
  | .scalar t =>
    if ephem.tbegin ≤ t ∧ t ≤ ephem.tend then
      .ok (ephem.ephindex t, ephem.ephindex t + 1)
    else .error "Time outside of ephemeris of range"
  | .array ts =>
    if ephem.tbegin ≤ ts.headD 0 ∧ ts.getLast?.getD 0 ≤ ephem.tend then
      .ok (ephem.ephindex (ts.headD 0), ephem.ephindex (ts.getLast?.getD 0) + 1)
    else .error "Time outside of ephemeris of range"

/-- Indices selected by a slice `(start, stop)`. -/
def sliceIdx (s : ℕ × ℕ) : List ℕ :=
  (List.range (s.2 - s.1)).map (· + s.1)

theorem sliceIdx_single (i : ℕ) : sliceIdx (i, i + 1) = [i] := by
  simp [sliceIdx, List.range_succ]

/-- Elementwise combination with numpy's broadcasting for the shapes the code
uses: a length-one array broadcasts against the other operand, otherwise the
operands are combined positionally. -/
def npBroadcast (f : α → β → γ) : List α → List β → List γ
  | [x], ys => if ys.length = 1 then List.zipWith f [x] ys else ys.map (f x)
  | xs, [y] => xs.map (fun x => f x y)
  | xs, ys => List.zipWith f xs ys

/-- Modelled from the spec: the point-in-polygon test that the external
`shapely` library performs for `SAAPolygonConstraint` — "Containment uses a
point-in-polygon test (ray casting / winding)".  Even-odd ray casting: a
horizontal ray from the point to the right toggles containment at each
crossed edge; boundary points are not treated specially (the tested points
are interior or exterior).  The polygon list is explicitly closed in the
source (first vertex repeated last), so consecutive pairs are the edges. -/
def insidePoly (poly : List (ℚ × ℚ)) (pt : ℚ × ℚ) : Bool :=
  (poly.zip poly.tail).foldl (fun c e =>
    if ((decide (e.1.2 > pt.2)) != (decide (e.2.2 > pt.2))) &&
        decide (pt.1 < e.1.1 + (pt.2 - e.1.2) * (e.2.1 - e.1.1) / (e.2.2 - e.1.2))
      then !c else c) false

/-- Embeds `SAAPolygonConstraint` (`across_api/base/constraints.py`, lines 50-89):
a polygon, and a call testing the sub-satellite longitude/latitude of each
sliced index for containment, returning `inconstraint[0]` for a scalar time
and the array otherwise. -/
structure SAAPolygonConstraintQ where
  polygon : List (ℚ × ℚ)

def SAAPolygonConstraintQ.call (self : SAAPolygonConstraintQ) (time : TimeArg)
    (ephem : EphemQ) : Except String BoolOrArr :=
  (getslice time ephem).map fun s =>
    let inconstraint := (sliceIdx s).map
      (fun i => insidePoly self.polygon (ephem.longitude i, ephem.latitude i))
    if time.isscalar then .scalar (inconstraint.headD false)
    else .array inconstraint

/-- Embeds `EarthLimbConstraint` (`across_api/base/constraints.py`, lines 92-150):
in constraint when the angular separation between the target and the Earth's
apparent center is below `earthsize + earthoccult`; the separation function
(`angular_separation`) is passed as `sep`.  Returns a scalar only when both
the time and the coordinate are scalar. -/
structure EarthLimbConstraintQ where
  earthoccult : ℚ

def EarthLimbConstraintQ.call (self : EarthLimbConstraintQ)
    (sep : Sky → Sky → ℚ) (coord : CoordArg) (time : TimeArg)
    (ephem : EphemQ) : Except String BoolOrArr :=
  (getslice time ephem).map fun s =>
    let seps := npBroadcast sep ((sliceIdx s).map ephem.earth) coord.toList
    let bounds := (sliceIdx s).map (fun i => ephem.earthsize i + self.earthoccult)
    let inconstraint := npBroadcast (fun a b => decide (a < b)) seps bounds
    if time.isscalar && coord.isscalar then .scalar (inconstraint.headD false)
    else .array inconstraint

/-- Embeds `SunConstraint` (`across_api/base/constraints.py`, lines 154-202). -/
structure SunConstraintQ where
  sunoccult : ℚ

def SunConstraintQ.call (self : SunConstraintQ) (sep : Sky → Sky → ℚ)
    (coord : Sky) (time : TimeArg) (ephem : EphemQ) : Except String BoolOrArr :=
  (getslice time ephem).map fun s =>
    let inconstraint := (sliceIdx s).map
      (fun i => decide (sep (ephem.sun i) coord < self.sunoccult))
    if time.isscalar then .scalar (inconstraint.headD false)
    else .array inconstraint

/-- Embeds `MoonConstraint` (`across_api/base/constraints.py`, lines 205-253). -/
structure MoonConstraintQ where
  moonoccult : ℚ

def MoonConstraintQ.call (self : MoonConstraintQ) (sep : Sky → Sky → ℚ)
    (coord : Sky) (time : TimeArg) (ephem : EphemQ) : Except String BoolOrArr :=
  (getslice time ephem).map fun s =>
    let inconstraint := (sliceIdx s).map
      (fun i => decide (sep (ephem.moon i) coord < self.moonoccult))
    if time.isscalar then .scalar (inconstraint.headD false)
    else .array inconstraint

/-- Embeds `RamConstraint` (`across_api/base/constraints.py`, lines 256-301): in
constraint when the separation between the velocity direction and the target
is below `ramsize`. -/
structure RamConstraintQ where
  ramsize : ℚ

def RamConstraintQ.call (self : RamConstraintQ) (sep : Sky → Sky → ℚ)
    (coord : Sky) (time : TimeArg) (ephem : EphemQ) : Except String BoolOrArr :=
  (getslice time ephem).map fun s =>
    let inconstraint := (sliceIdx s).map
      (fun i => decide (sep (ephem.velsky i) coord < self.ramsize))
    if time.isscalar then .scalar (inconstraint.headD false)
    else .array inconstraint

/-- Embeds `PoleConstraint` (`across_api/base/constraints.py`, lines 335-378): the
pole constraint size is `earthsize + (earthoccult - 90°)`; the per-index
value is `pole_dist < pole_cons or pole_dist > 360° - pole_cons`, where
`pole_dist` is the separation between the orbit pole direction and the
target. -/
structure PoleConstraintQ where
  earthoccult : ℚ

def PoleConstraintQ.call (self : PoleConstraintQ) (sep : Sky → Sky → ℚ)
    (coord : Sky) (time : TimeArg) (ephem : EphemQ) : Except String BoolOrArr :=
  (getslice time ephem).map fun s =>
    let inconstraint := (sliceIdx s).map (fun i =>
      let pole_cons := ephem.earthsize i + (self.earthoccult - 90)
      let pole_dist := sep (ephem.polesky i) coord
      decide (pole_dist < pole_cons) || decide (pole_dist > 360 - pole_cons))
    if time.isscalar then .scalar (inconstraint.headD false)
    else .array inconstraint

/-- Modelled from the spec: the Orbit Pole predicate as the spec words it —
"true when target's angular distance from either pole is less than a size
derived from (Earth angular radius + limb angle − 90°)".  The distance from
the opposite pole of a direction at separation `d ∈ [0°, 180°]` is
`180° − d`. -/
def specPoleEitherPole (pole_dist pole_cons : ℚ) : Prop :=
  pole_dist < pole_cons ∨ 180 - pole_dist < pole_cons

theorem npBroadcast_single_left (f : α → β → γ) (x : α) (ys : List β) :
    npBroadcast f [x] ys = ys.map (f x) := by
  rcases ys with _ | ⟨y, ys'⟩
  · simp [npBroadcast]
  · rcases ys' with _ | ⟨z, ys''⟩ <;> simp [npBroadcast]

theorem npBroadcast_single_right (f : α → β → γ) (xs : List α) (y : β) :
    npBroadcast f xs [y] = xs.map (fun x => f x y) := by
  rcases xs with _ | ⟨a, _ | ⟨b, rest⟩⟩ <;> simp [npBroadcast]

theorem getslice_scalar (e : EphemQ) (t : ℚ) (h1 : e.tbegin ≤ t)
    (h2 : t ≤ e.tend) :
    getslice (.scalar t) e = .ok (e.ephindex t, e.ephindex t + 1) := by
  simp [getslice, h1, h2]

theorem getslice_one (e : EphemQ) (t : ℚ) (h1 : e.tbegin ≤ t)
    (h2 : t ≤ e.tend) :
    getslice (.array [t]) e = .ok (e.ephindex t, e.ephindex t + 1) := by
  simp [getslice, h1, h2]

/-- C4.  For each of the six constraint predicates, an ephemeris, and an
instant within the ephemeris's covered range, the scalar-time path returns
exactly the boolean that the length-one time-array path returns as its only
element: both paths compute the same slice `(ephindex t, ephindex t + 1)` and
the same per-index predicate, the scalar path extracting element 0. -/
theorem C4_scalar_array_agree (e : EphemQ) (t : ℚ) (sep : Sky → Sky → ℚ)
    (coord : Sky) (saaC : SAAPolygonConstraintQ) (earthC : EarthLimbConstraintQ)
    (sunC : SunConstraintQ) (moonC : MoonConstraintQ) (ramC : RamConstraintQ)
    (poleC : PoleConstraintQ) (h1 : e.tbegin ≤ t) (h2 : t ≤ e.tend) :
    (∃ b, saaC.call (.scalar t) e = .ok (.scalar b) ∧
        saaC.call (.array [t]) e = .ok (.array [b]))
    ∧ (∃ b, earthC.call sep (.scalar coord) (.scalar t) e = .ok (.scalar b) ∧
        earthC.call sep (.scalar coord) (.array [t]) e = .ok (.array [b]))
    ∧ (∃ b, sunC.call sep coord (.scalar t) e = .ok (.scalar b) ∧
        sunC.call sep coord (.array [t]) e = .ok (.array [b]))
    ∧ (∃ b, moonC.call sep coord (.scalar t) e = .ok (.scalar b) ∧
        moonC.call sep coord (.array [t]) e = .ok (.array [b]))
    ∧ (∃ b, ramC.call sep coord (.scalar t) e = .ok (.scalar b) ∧
        ramC.call sep coord (.array [t]) e = .ok (.array [b]))
    ∧ (∃ b, poleC.call sep coord (.scalar t) e = .ok (.scalar b) ∧
        poleC.call sep coord (.array [t]) e = .ok (.array [b])) := by
  have hs := getslice_scalar e t h1 h2
  have ha := getslice_one e t h1 h2
  refine ⟨⟨insidePoly saaC.polygon
        (e.longitude (e.ephindex t), e.latitude (e.ephindex t)), ?_, ?_⟩,
    ⟨decide (sep (e.earth (e.ephindex t)) coord <
        e.earthsize (e.ephindex t) + earthC.earthoccult), ?_, ?_⟩,
    ⟨decide (sep (e.sun (e.ephindex t)) coord < sunC.sunoccult), ?_, ?_⟩,
    ⟨decide (sep (e.moon (e.ephindex t)) coord < moonC.moonoccult), ?_, ?_⟩,
    ⟨decide (sep (e.velsky (e.ephindex t)) coord < ramC.ramsize), ?_, ?_⟩,
    ⟨decide (sep (e.polesky (e.ephindex t)) coord <
          e.earthsize (e.ephindex t) + (poleC.earthoccult - 90)) ||
        decide (sep (e.polesky (e.ephindex t)) coord >
          360 - (e.earthsize (e.ephindex t) + (poleC.earthoccult - 90))),
      ?_, ?_⟩⟩ <;>
    simp [SAAPolygonConstraintQ.call, EarthLimbConstraintQ.call,
      SunConstraintQ.call, MoonConstraintQ.call, RamConstraintQ.call,
      PoleConstraintQ.call, hs, ha, sliceIdx_single, TimeArg.isscalar,
      CoordArg.isscalar, CoordArg.toList, npBroadcast_single_left,
      npBroadcast_single_right, Except.map]

/-- Concrete ephemeris for witnesses: covers `[0, 120]`, constant data,
Earth angular radius 70°. -/
def ephemW : EphemQ :=
  ⟨0, 120, fun _ => 0, fun _ => 0, fun _ => 0, fun _ => ⟨0, 0⟩,
    fun _ => ⟨0, 0⟩, fun _ => ⟨0, 0⟩, fun _ => ⟨0, 0⟩, fun _ => ⟨0, 0⟩,
    fun _ => 70⟩

/-- Origin sky position. -/
def skyZero : Sky := ⟨0, 0⟩

theorem C4_witness :
    (∃ b, SAAPolygonConstraintQ.call ⟨[]⟩ (.scalar 60) ephemW =
          .ok (.scalar b) ∧
        SAAPolygonConstraintQ.call ⟨[]⟩ (.array [60]) ephemW =
          .ok (.array [b]))
    ∧ (∃ b, EarthLimbConstraintQ.call ⟨3⟩ (fun _ _ => 50) (.scalar skyZero)
          (.scalar 60) ephemW = .ok (.scalar b) ∧
        EarthLimbConstraintQ.call ⟨3⟩ (fun _ _ => 50) (.scalar skyZero)
          (.array [60]) ephemW = .ok (.array [b]))
    ∧ (∃ b, SunConstraintQ.call ⟨45⟩ (fun _ _ => 50) skyZero (.scalar 60)
          ephemW = .ok (.scalar b) ∧
        SunConstraintQ.call ⟨45⟩ (fun _ _ => 50) skyZero (.array [60])
          ephemW = .ok (.array [b]))
    ∧ (∃ b, MoonConstraintQ.call ⟨21⟩ (fun _ _ => 50) skyZero (.scalar 60)
          ephemW = .ok (.scalar b) ∧
        MoonConstraintQ.call ⟨21⟩ (fun _ _ => 50) skyZero (.array [60])
          ephemW = .ok (.array [b]))
    ∧ (∃ b, RamConstraintQ.call ⟨15⟩ (fun _ _ => 50) skyZero (.scalar 60)
          ephemW = .ok (.scalar b) ∧
        RamConstraintQ.call ⟨15⟩ (fun _ _ => 50) skyZero (.array [60])
          ephemW = .ok (.array [b]))
    ∧ (∃ b, PoleConstraintQ.call ⟨33⟩ (fun _ _ => 50) skyZero (.scalar 60)
          ephemW = .ok (.scalar b) ∧
        PoleConstraintQ.call ⟨33⟩ (fun _ _ => 50) skyZero (.array [60])
          ephemW = .ok (.array [b])) :=
  C4_scalar_array_agree ephemW 60 (fun _ _ => 50) skyZero ⟨[]⟩ ⟨3⟩ ⟨45⟩ ⟨21⟩
    ⟨15⟩ ⟨33⟩ (by decide) (by decide)

/-- C5.  The Orbit Pole constraint at the failing input: the target is 170°
from the orbit normal — 10° from the opposite orbit pole — and the pole
constraint size `earthsize + (earthoccult − 90°) = 70 + (33 − 90) = 13°`.
The spec (and the code's own comment, "pole constraints for the south and
north orbit poles") requires the predicate to be true, but the code's second
disjunct tests `pole_dist > 360° − pole_cons`, which no separation value
(`≤ 180°`) can satisfy for a size below 180°, so the call returns `False`. -/
theorem C5_pole_bug :
    PoleConstraintQ.call ⟨33⟩ (fun _ _ => 170) skyZero (.scalar 60) ephemW =
      .ok (.scalar false)
    ∧ specPoleEitherPole 170 (ephemW.earthsize 0 + (33 - 90))
    ∧ (0 : ℚ) ≤ 170 ∧ (170 : ℚ) ≤ 180 := by
  refine ⟨?_, ?_, by decide, by decide⟩
  · have hs := getslice_scalar ephemW 60 (by decide) (by decide)
    simp only [PoleConstraintQ.call, hs, sliceIdx_single, TimeArg.isscalar,
      Except.map, List.map_cons, List.map_nil, List.headD_cons]
    norm_num [ephemW]
  · right
    norm_num [ephemW]

/-- C10.  Calling the Earth-limb constraint with a scalar time and an array
of sky coordinates returns one boolean per coordinate — the length-one
ephemeris slice broadcasts — each true exactly when that coordinate's
separation from the Earth's apparent center is below the Earth angular
radius plus the avoidance angle; the result is an array, not a scalar. -/
theorem C10_earthlimb_vectorized (earthC : EarthLimbConstraintQ)
    (sep : Sky → Sky → ℚ) (coords : List Sky) (t : ℚ) (e : EphemQ)
    (h1 : e.tbegin ≤ t) (h2 : t ≤ e.tend) :
    earthC.call sep (.array coords) (.scalar t) e =
      .ok (.array (coords.map (fun c =>
        decide (sep (e.earth (e.ephindex t)) c <
          e.earthsize (e.ephindex t) + earthC.earthoccult)))) := by
  have hs := getslice_scalar e t h1 h2
  simp [EarthLimbConstraintQ.call, hs, sliceIdx_single, TimeArg.isscalar,
    CoordArg.isscalar, CoordArg.toList, npBroadcast_single_left,
    npBroadcast_single_right, Except.map, List.map_map, Function.comp]

theorem C10_witness :
    EarthLimbConstraintQ.call ⟨3⟩ (fun _ c => c.ra)
        (.array [⟨0, 0⟩, ⟨80, 0⟩]) (.scalar 60) ephemW =
      .ok (.array ([⟨0, 0⟩, ⟨80, 0⟩].map (fun c : Sky =>
        decide ((fun _ c => c.ra) (ephemW.earth (ephemW.ephindex 60)) c <
          ephemW.earthsize (ephemW.ephindex 60) + (3 : ℚ))))) :=
  C10_earthlimb_vectorized ⟨3⟩ (fun _ c => c.ra) [⟨0, 0⟩, ⟨80, 0⟩] 60 ephemW
    (by decide) (by decide)

/-- Embeds `BurstCubeSAAPolygon.points` (`across_api/burstcube/saa.py`, lines
19-39): the BurstCube SAA polygon vertex list, explicitly closed (the first
vertex is repeated last). -/
def burstCubeSAAPoints : List (ℚ × ℚ) :=
  [(33.900000, -30.0), (12.398, -19.876), (-9.103, -9.733), (-30.605, 0.4),
    (-38.4, 2.0), (-45.0, 2.0), (-65.0, -1.0), (-84.0, -6.155),
    (-89.2, -8.880), (-94.3, -14.220), (-94.3, -18.404),
    (-84.48631, -31.84889), (-86.100000, -30.0), (-72.34921, -43.98599),
    (-54.5587, -52.5815), (-28.1917, -53.6258), (-0.2095279, -46.88834),
    (28.8026, -34.0359), (33.900000, -30.0)]

/-- Sub-satellite ephemeris at longitude 0°, latitude −40°. -/
def ephemLat40 : EphemQ :=
  ⟨0, 120, fun _ => 0, fun _ => 0, fun _ => -40, fun _ => ⟨0, 0⟩,
    fun _ => ⟨0, 0⟩, fun _ => ⟨0, 0⟩, fun _ => ⟨0, 0⟩, fun _ => ⟨0, 0⟩,
    fun _ => 70⟩

/-- Sub-satellite ephemeris at longitude 0°, latitude −10°. -/
def ephemLat10 : EphemQ :=
  ⟨0, 120, fun _ => 0, fun _ => 0, fun _ => -10, fun _ => ⟨0, 0⟩,
    fun _ => ⟨0, 0⟩, fun _ => ⟨0, 0⟩, fun _ => ⟨0, 0⟩, fun _ => ⟨0, 0⟩,
    fun _ => 70⟩

/-- C9 as frozen is false on the code's polygon: the point at longitude 0°,
latitude −40° lies inside the BurstCube SAA polygon of the source (whose
vertices reach −53.6° latitude), so the containment test returns True, not
False. -/
theorem C9_counterexample :
    insidePoly burstCubeSAAPoints (0, -40) = true := by
  norm_num [insidePoly, burstCubeSAAPoints, List.foldl, List.zip,
    List.zipWith]

/-- C9 (amended).  On the source polygon the two test points evaluate the
other way around: the SAA constraint on sub-satellite coordinates is True at
(0°, −40°) — inside the polygon — and False at (0°, −10°), which lies north
of the polygon's boundary (≈ −14° at longitude 0). -/
theorem C9_amended :
    SAAPolygonConstraintQ.call ⟨burstCubeSAAPoints⟩ (.scalar 60) ephemLat40 =
      .ok (.scalar true)
    ∧ SAAPolygonConstraintQ.call ⟨burstCubeSAAPoints⟩ (.scalar 60) ephemLat10 =
      .ok (.scalar false) := by
  constructor
  · have hs := getslice_scalar ephemLat40 60 (by decide) (by decide)
    simp only [SAAPolygonConstraintQ.call, hs, sliceIdx_single,
      TimeArg.isscalar, Except.map, List.map_cons, List.map_nil,
      List.headD_cons]
    norm_num [insidePoly, burstCubeSAAPoints, ephemLat40, List.foldl,
      List.zip, List.zipWith]
  · have hs := getslice_scalar ephemLat10 60 (by decide) (by decide)
    simp only [SAAPolygonConstraintQ.call, hs, sliceIdx_single,
      TimeArg.isscalar, Except.map, List.map_cons, List.map_nil,
      List.headD_cons]
    norm_num [insidePoly, burstCubeSAAPoints, ephemLat10, List.foldl,
      List.zip, List.zipWith]

/-- Number of grid steps in `SAABase.get` (`across_api/base/saa.py`, line
102): `int((end - begin) / stepsize + 1)`; `int` truncates toward zero,
which is the floor for the non-negative values produced by a valid range. -/
def saaSteps (tbegin tend stepsize : ℚ) : ℕ :=
  (Int.floor ((tend - tbegin) / stepsize + 1)).toNat

/-- Embeds `np.linspace(begin, end, steps)` (`across_api/base/saa.py`, line 103):
`steps` evenly spaced values from `begin` to `end` inclusive; division by
zero for a single step is irrelevant since the only index is then 0. -/
def linspace (tbegin tend : ℚ) (n : ℕ) : List ℚ :=
  (List.range n).map (fun i : ℕ => tbegin + (i : ℚ) * ((tend - tbegin) / ((n : ℚ) - 1)))

/-- The timestamp grid `SAABase.get` computes. -/
def saaTimestamps (tbegin tend stepsize : ℚ) : List ℚ :=
  linspace tbegin tend (saaSteps tbegin tend stepsize)

/-- C6 (amended).  Unconditionally, for every valid grid (begin ≤ end,
step > 0), the generated sequence has `floor((end − begin)/step) + 1`
entries and starts at `begin`.  When the step divides the range — which
`SAABase.__init__` arranges by rounding begin and end to step resolution —
the grid is `begin, begin + step, …, end`: both endpoints included,
strictly increasing with constant spacing equal to the step.  And whenever
`0 < end − begin < step`, the grid is the single instant `[begin]`: the end
instant is omitted, so endpoint inclusion and step spacing fail on
non-multiple ranges. -/
theorem C6_amended (tbegin tend stepsize : ℚ) (hbe : tbegin ≤ tend)
    (hstep : 0 < stepsize) :
    ((saaTimestamps tbegin tend stepsize).length =
        (Int.floor ((tend - tbegin) / stepsize)).toNat + 1
      ∧ (saaTimestamps tbegin tend stepsize).headD 0 = tbegin)
    ∧ (∀ k : ℕ, tend - tbegin = k * stepsize →
        saaTimestamps tbegin tend stepsize =
          (List.range (k + 1)).map (fun i : ℕ => tbegin + (i : ℚ) * stepsize)
        ∧ (saaTimestamps tbegin tend stepsize).getLast?.getD 0 = tend
        ∧ List.Pairwise (· < ·) (saaTimestamps tbegin tend stepsize))
    ∧ (0 < tend - tbegin → tend - tbegin < stepsize →
        saaTimestamps tbegin tend stepsize = [tbegin]) := by
  have hstep0 : stepsize ≠ 0 := ne_of_gt hstep
  have hx0 : 0 ≤ (tend - tbegin) / stepsize :=
    div_nonneg (by linarith) (le_of_lt hstep)
  have hfadd : Int.floor ((tend - tbegin) / stepsize + 1) =
      Int.floor ((tend - tbegin) / stepsize) + 1 := Int.floor_add_one _
  have hf0 : 0 ≤ Int.floor ((tend - tbegin) / stepsize) :=
    Int.floor_nonneg.mpr hx0
  have hlen : (saaTimestamps tbegin tend stepsize).length =
      (Int.floor ((tend - tbegin) / stepsize)).toNat + 1 := by
    rw [saaTimestamps, linspace, List.length_map, List.length_range,
      saaSteps, hfadd]
    omega
  refine ⟨⟨hlen, ?_⟩, ?_, ?_⟩
  · -- the first grid instant is `begin`, for every valid grid
    obtain ⟨m, hm⟩ : ∃ m, saaSteps tbegin tend stepsize = m + 1 := by
      refine ⟨saaSteps tbegin tend stepsize - 1, ?_⟩
      rw [saaSteps, hfadd]
      omega
    rw [saaTimestamps, linspace, hm, List.range_succ_eq_map]
    simp
  · -- the exact grid, when the step divides the range
    intro k hdiv
    have hquot : (tend - tbegin) / stepsize = (k : ℚ) := by
      rw [hdiv]
      field_simp
    have hsteps : saaSteps tbegin tend stepsize = k + 1 := by
      rw [saaSteps, hquot]
      rw [show ((k : ℚ) + 1) = ((k + 1 : ℤ) : ℚ) by push_cast; ring]
      rw [Int.floor_intCast]
      omega
    have hmain : saaTimestamps tbegin tend stepsize =
        (List.range (k + 1)).map (fun i : ℕ => tbegin + (i : ℚ) * stepsize) := by
      rw [saaTimestamps, hsteps, linspace]
      apply List.map_congr_left
      intro i hi
      rcases Nat.eq_zero_or_pos k with hk0 | hkpos
      · have hi0 : i = 0 := by
          rw [hk0] at hi
          simpa using List.mem_range.mp hi
        rw [hi0]
        push_cast
        ring
      · have hkq : ((k + 1 : ℕ) : ℚ) - 1 = (k : ℚ) := by push_cast; ring
        have hkne : (k : ℚ) ≠ 0 := by
          exact_mod_cast Nat.pos_iff_ne_zero.mp hkpos
        rw [hkq, hdiv, mul_comm (k : ℚ) stepsize, mul_div_assoc,
          div_self hkne, mul_one]
    refine ⟨hmain, ?_, ?_⟩
    · rw [hmain, List.getLast?_map]
      have hlast : (List.range (k + 1)).getLast? = some k := by
        rw [List.range_succ]
        simp
      rw [hlast]
      simp only [Option.map_some', Option.getD_some]
      linarith [hdiv]
    · rw [hmain]
      refine List.Pairwise.map _ ?_ (List.pairwise_lt_range (k + 1))
      intro a b hab
      have ha : (a : ℚ) < b := by exact_mod_cast hab
      nlinarith
  · -- a range below one step collapses to the single instant `begin`
    intro hpos hlt
    have hx1 : (tend - tbegin) / stepsize < 1 := (div_lt_one hstep).mpr hlt
    have hfx : Int.floor ((tend - tbegin) / stepsize) = 0 := by
      rw [Int.floor_eq_iff]
      constructor
      · simpa using hx0
      · simpa using hx1
    have hsteps1 : saaSteps tbegin tend stepsize = 1 := by
      rw [saaSteps, hfadd, hfx]
      rfl
    rw [saaTimestamps, hsteps1, linspace]
    simp [List.range_succ]

/-- C6 as frozen is false on the code: for begin 0, end 90, step 60 — a
valid grid whose range is not a multiple of the step — the computed grid is
`[0, 90]`, spacing 90 seconds rather than the 60-second step; and for begin
0, end 50, step 60 the grid is `[0]` alone, so the end instant is not even
included. -/
theorem C6_counterexample :
    saaTimestamps 0 90 60 = [0, 90]
    ∧ (saaTimestamps 0 90 60).getD 1 0 - (saaTimestamps 0 90 60).getD 0 0 = 90
    ∧ (90 : ℚ) ≠ 60
    ∧ saaTimestamps 0 50 60 = [0] := by
  have h : saaTimestamps 0 90 60 = [0, 90] := by
    have hfloor : (Int.floor (((90 : ℚ) - 0) / 60 + 1)) = 2 := by
      apply Int.floor_eq_iff.mpr
      norm_num
    have hsteps : saaSteps 0 90 60 = 2 := by
      rw [saaSteps, hfloor]
      rfl
    rw [saaTimestamps, hsteps, linspace]
    norm_num [List.range_succ]
  have h50 : saaTimestamps 0 50 60 = [0] := by
    have hfloor : (Int.floor (((50 : ℚ) - 0) / 60 + 1)) = 1 := by
      apply Int.floor_eq_iff.mpr
      norm_num
    have hsteps : saaSteps 0 50 60 = 1 := by
      rw [saaSteps, hfloor]
      rfl
    rw [saaTimestamps, hsteps, linspace]
    norm_num [List.range_succ]
  exact ⟨h, by rw [h]; norm_num, by norm_num, h50⟩

/-- Whitespace split of `str.split()` with no separator argument: split on
runs of whitespace, dropping empty fields.  Characters are processed
directly (the accumulator holds the current field reversed). -/
def splitWsAux : List Char → List Char → List (List Char)
  | [], acc => if acc = [] then [] else [acc.reverse]
  | c :: cs, acc =>
    if c.isWhitespace then
      (if acc = [] then splitWsAux cs [] else acc.reverse :: splitWsAux cs [])
    else splitWsAux cs (c :: acc)

/-- Python `line.split()` over a string's characters. -/
def pySplit (s : String) : List (List Char) :=
  splitWsAux s.data []

/-- Embeds `int(tleepoch[0:2])`: the two leading decimal digits of the epoch
field. -/
def parseTwoDigit : List Char → Option ℕ
  | c1 :: c2 :: _ =>
    if c1.isDigit && c2.isDigit then
      some ((c1.toNat - 48) * 10 + (c2.toNat - 48))
    else none
  | _ => none

/-- Two-digit year rule of `TLEEntry.epoch`
(`across_api/base/schema.py`, lines 444-448). -/
def tleEpochYear (tleyear : ℕ) : ℕ :=
  if tleyear < 57 then 2000 + tleyear else 1900 + tleyear

/-- Epoch year decoded from a TLE first line: field 3 of the
whitespace-split line (`tle1.split()[3]`), its two leading digits mapped
through the century rule. -/
def tleEpochYearOfLine (tle1 : String) : Option ℕ :=
  (parseTwoDigit ((pySplit tle1).getD 3 [])).map tleEpochYear

/-- Offset in days that `TLEEntry.epoch` adds to January 1 of the decoded
year: `(day_of_year - 1) * u.day`, preserving the fractional (sub-day) part
of the day-of-year field. -/
def tleEpochDays (day_of_year : ℚ) : ℚ :=
  day_of_year - 1

/-- C7.  The TLE epoch year rule: a two-digit year below 57 decodes into the
2000s and 57 or above into the 1900s; on full 69-character first lines, the
year field "24" decodes to 2024 and "57" to 1957; the fractional day-of-year
is carried as a day offset from January 1, keeping sub-day precision. -/
theorem C7_tle_epoch :
    tleEpochYearOfLine
        "1 25544U 98067A   24003.59801929  .00015877  00000-0  28516-3 0  9995"
      = some 2024
    ∧ tleEpochYearOfLine
        "1 25544U 98067A   57003.59801929  .00015877  00000-0  28516-3 0  9995"
      = some 1957
    ∧ (∀ y : ℕ, y < 57 → tleEpochYear y = 2000 + y)
    ∧ (∀ y : ℕ, 57 ≤ y → tleEpochYear y = 1900 + y)
    ∧ (∀ doy : ℚ, tleEpochDays doy = doy - 1) := by
  refine ⟨by decide, by decide, ?_, ?_, fun _ => rfl⟩
  · intro y hy
    simp [tleEpochYear, hy]
  · intro y hy
    simp [tleEpochYear, Nat.not_lt.mpr hy]

theorem C6_witness :
    ((saaTimestamps 0 120 60).length =
        (Int.floor (((120 : ℚ) - 0) / 60)).toNat + 1
      ∧ (saaTimestamps 0 120 60).headD 0 = 0)
    ∧ (∀ k : ℕ, (120 : ℚ) - 0 = k * 60 →
        saaTimestamps 0 120 60 =
          (List.range (k + 1)).map (fun i : ℕ => 0 + (i : ℚ) * 60)
        ∧ (saaTimestamps 0 120 60).getLast?.getD 0 = 120
        ∧ List.Pairwise (· < ·) (saaTimestamps 0 120 60))
    ∧ (0 < (120 : ℚ) - 0 → (120 : ℚ) - 0 < 60 →
        saaTimestamps 0 120 60 = [0]) :=
  C6_amended 0 120 60 (by decide) (by decide)

/-- Context of `FOVBase` (`across_api/base/fov.py`): the Earth-limb
constraint used by `infov`, the separation function, and — modelled from the
spec, since they are computed by the external `astropy_healpix` library and
a transcendental Gaussian — the pixel-to-sky lookup (`healpix_to_lonlat`)
and the rasterization of a circular error region into a probability map
(`healpix_map_from_position_error`). -/
structure FOVCtx where
  earthoccult : ℚ
  sep : Sky → Sky → ℚ
  pixSky : ℕ → Sky
  circmap : Sky → ℚ → List ℚ

/-- Embeds `np.round(x, 5)` applied by `infov_healpix_map`; modelled with rational
rounding (half-to-even of numpy vs half-away of `Rat.round` differs only at
exact midpoints, which the claims do not exercise). -/
def round5 (q : ℚ) : ℚ :=
  (round (q * 100000) : ℤ) / 100000

/-- Embeds `FOVBase.infov` (`across_api/base/fov.py`, lines 134-169): logical
negation of the Earth-limb constraint — the base all-sky FOV. -/
def infov (ctx : FOVCtx) (skycoord : CoordArg) (time : TimeArg)
    (ephem : EphemQ) : Except String BoolOrArr :=
  (EarthLimbConstraintQ.call ⟨ctx.earthoccult⟩ ctx.sep skycoord time
      ephem).map fun r =>
    match r with
    | .scalar b => .scalar (!b)
    | .array bs => .array (bs.map (!·))

/-- Embeds `FOVBase.infov_healpix_map` (`across_api/base/fov.py`, lines 221-299),
single-order ("NESTED"/"RING") path: select the indices of non-zero
probability pixels, convert them to sky coordinates, evaluate `infov` for
all of them at once, and sum the probability of the visible pixels, rounded
to five digits.  (The "NUNIQ" branch additionally weights by pixel area; it
is not needed by the claims.) -/
def infov_healpix_map (ctx : FOVCtx) (healpix_loc : List ℚ) (time : TimeArg)
    (ephem : EphemQ) : Except String ℚ :=
  let nonzero := (List.range healpix_loc.length).filter
    (fun i => decide (0 < healpix_loc.getD i 0))
  let coords := nonzero.map ctx.pixSky
  (infov ctx (.array coords) time ephem).bind fun r =>
    match r with
    | .array bs =>
      let visible := ((nonzero.zip bs).filter (fun p => p.2)).map (fun p => p.1)
      .ok (round5 (visible.foldl (fun acc i => acc + healpix_loc.getD i 0) 0))
    | .scalar _ => .error "unexpected scalar visibility"

/-- Embeds `FOVBase.infov_circular_error` (`across_api/base/fov.py`, lines
171-219): `assert skycoord.isscalar` then rasterize the error region and
integrate it with `infov_healpix_map`. -/
def infov_circular_error (ctx : FOVCtx) (skycoord : CoordArg)
    (error_radius : ℚ) (time : TimeArg) (ephem : EphemQ) : Except String ℚ :=
  match skycoord with
  | .scalar c => infov_healpix_map ctx (ctx.circmap c error_radius) time ephem
  | .array _ => .error "SkyCoord must be scalar"

/-- Embeds `FOVBase.probability_infov` (`across_api/base/fov.py`, lines 89-132):
point source when a sky position is given with no error radius (1.0 or 0.0
by `infov`), circular error region when both are given, HEALPix map
otherwise when one is given, and `AssertionError("No valid arguments
provided")` when none of the three target forms is supplied. -/
def probability_infov (ctx : FOVCtx) (time : TimeArg) (ephem : EphemQ)
    (skycoord : Option CoordArg) (error_radius : Option ℚ)
    (healpix_loc : Option (List ℚ)) : Except String ℚ :=
  match skycoord, error_radius with
  | some sc, none =>
    (infov ctx sc time ephem).bind fun r =>
      match r with
      | .scalar b => .ok (if b then 1 else 0)
      | .array [b] => .ok (if b then 1 else 0)
      | .array _ => .error "truth value of an array is ambiguous"
  | some sc, some er => infov_circular_error ctx sc er time ephem
  | none, _ =>
    match healpix_loc with
    | some hp => infov_healpix_map ctx hp time ephem
    | none => .error "No valid arguments provided"

/-- C8.  `probability_infov` fails with its `AssertionError` — returning no
probability — when neither a point position, nor a position with error
radius, nor a HEALPix map is supplied (an error radius alone does not
count), and `infov_circular_error` fails with its scalar assertion whenever
a vectorized (non-scalar) sky position is passed for a circular-error
calculation, whatever the other arguments. -/
theorem C8_assert_errors (ctx : FOVCtx) (time : TimeArg) (ephem : EphemQ) :
    (probability_infov ctx time ephem none none none =
      .error "No valid arguments provided")
    ∧ (∀ er : ℚ, probability_infov ctx time ephem none (some er) none =
      .error "No valid arguments provided")
    ∧ (∀ (cs : List Sky) (er : ℚ) (hp : Option (List ℚ)),
        probability_infov ctx time ephem (some (.array cs)) (some er) hp =
          .error "SkyCoord must be scalar") := by
  refine ⟨rfl, fun er => rfl, fun cs er hp => rfl⟩

end AcrossCore
